import Mathlib

/-!
Verification of `gen::lru_cache`.

A shallow embedding of `lru_cache.hpp` / `lru_cache.ipp`.

* `std::list<std::pair<K, V>>` is a list of nodes; every node carries the address it
  lives at, so that iterators (addresses, or the past-the-end position) stay valid when
  nodes are relinked, exactly as the iterators stored in `m_key_iter_table` do.
* `std::unordered_map<K, iterator>` is an association list; nothing in the program
  iterates over the table, so its internal order is never observed.
* `size_t` is `Nat`: the only subtraction (`size() - new_max_size` in `reserve`) is
  guarded by `new_max_size < size()`, and no other arithmetic is performed on sizes.
* An operation returns `none` when the program would dereference an iterator that does
  not point to a node of the list (`top->first` on an empty list, `pop_back` on an empty
  list, ...): behaviour the language leaves undefined. The one exception is the call
  `splice(begin(), m_values, end())` made by `put`, which every mainstream library
  executes as a no-op; see `splice`.
* A new node gets the least address above all live nodes; nothing observable depends on
  the addresses chosen.
* The mutex is not modelled: the embedding describes one operation at a time.
* The copy and move constructors give `m_max_size` no initialiser; the value the member
  then has is a parameter (`storage`) of their embeddings. Operations on two objects
  return both objects; copy assignment of an object to itself has an embedding of its
  own, built from the same body.
-/

set_option linter.unusedSectionVars false

namespace gen

/-! ## `std::list<std::pair<K, V>>` -/

/-- One node of the list: the address of the node and the pair stored in it. -/
structure list_node (K V : Type) where
  addr : Nat
  first : K
  second : V
  deriving DecidableEq, Repr

/-- An iterator of the list: the address of a node, or the past-the-end position
(the sentinel of the node ring). -/
inductive iterator where
  | ptr (addr : Nat)
  | past_end
  deriving DecidableEq, Repr

/-- The type `key_value_list` of the class: the nodes in list order, head first. -/
abbrev key_value_list (K V : Type) := List (list_node K V)

/-- The type `key_iter_list` of the class: key to iterator, keys unique. -/
abbrev key_iter_list (K : Type) := List (K × iterator)

section list_model

variable {K V : Type}

/-- Member `l.begin()`: the first node, or the past-the-end position of an empty list. -/
def list_begin : key_value_list K V → iterator
  | [] => iterator.past_end
  | n :: _ => iterator.ptr n.addr

/-- Member `l.end()`: the past-the-end position. -/
def list_end (_l : key_value_list K V) : iterator := iterator.past_end

/-- Dereference `*it`: the node an iterator points to; `none` for the past-the-end position and for
an address that is not a node of the list. -/
def deref (l : key_value_list K V) : iterator → Option (list_node K V)
  | iterator.past_end => none
  | iterator.ptr a => l.find? (fun n => decide (n.addr = a))

/-- The iterator following the node at address `a`; `none` when there is no such node. -/
def succ_of (a : Nat) : key_value_list K V → Option iterator
  | [] => none
  | n :: l => if n.addr = a then some (list_begin l) else succ_of a l

/-- Increment `++it` on the node ring: the successor of the sentinel is the first node. -/
def next (l : key_value_list K V) : iterator → Option iterator
  | iterator.past_end => some (list_begin l)
  | iterator.ptr a => succ_of a l

/-- Unlink the node at address `a`. -/
def remove_node (a : Nat) : key_value_list K V → key_value_list K V
  | [] => []
  | n :: l => if n.addr = a then l else n :: remove_node a l

/-- Link node `x` in front of position `pos`; `none` when `pos` is not a position of the
list. -/
def insert_before (pos : iterator) (x : list_node K V) :
    key_value_list K V → Option (key_value_list K V)
  | [] => if pos = iterator.past_end then some [x] else none
  | n :: l =>
    if pos = iterator.ptr n.addr then some (x :: n :: l)
    else (insert_before pos x l).map (fun r => n :: r)

/-- Member `l.splice(pos, l, i)`: relink the single node `i` in front of `pos`.

The library computes `j = i; ++j;` and returns at once when `pos == i || pos == j`;
otherwise it transfers `[i, j)` in front of `pos`. The standard requires `i` to be
dereferenceable. For `i == l.end()` the successor on the node ring is `l.begin()`, so
with `pos == l.begin()` the call returns without relinking anything (libstdc++, libc++
and the MSVC library agree on this); that is the only way the program ever passes
`end()` here. Any other use of a non-dereferenceable `i` is `none`. -/
def splice (l : key_value_list K V) (pos i : iterator) : Option (key_value_list K V) :=
  match next l i with
  | none => none
  | some j =>
    if pos = i ∨ pos = j then some l
    else
      match deref l i with
      | none => none
      | some x => insert_before pos x (remove_node x.addr l)

/-- The address handed out for a new node: one that no live node occupies. -/
def fresh_addr (l : key_value_list K V) : Nat :=
  (l.map (fun n => n.addr)).foldr max 0 + 1

/-- Member `l.emplace_front(key, value)`: a new node becomes the head. -/
def emplace_front (l : key_value_list K V) (key : K) (value : V) : key_value_list K V :=
  { addr := fresh_addr l, first := key, second := value } :: l

/-- Assignment `it->first = key` for a node of the list. -/
def set_first (l : key_value_list K V) (it : iterator) (key : K) :
    Option (key_value_list K V) :=
  match deref l it with
  | none => none
  | some x => some (l.map (fun n => if n.addr = x.addr then { n with first := key } else n))

/-- Assignment `it->second = value` for a node of the list. -/
def set_second (l : key_value_list K V) (it : iterator) (value : V) :
    Option (key_value_list K V) :=
  match deref l it with
  | none => none
  | some x => some (l.map (fun n => if n.addr = x.addr then { n with second := value } else n))

/-- Type `std::reverse_iterator<iterator>`: it wraps the iterator `current` and designates the
element just before it. -/
structure reverse_iterator where
  current : iterator
  deriving DecidableEq, Repr

/-- Member `l.rbegin()`, which is `reverse_iterator(l.end())`. -/
def rbegin (l : key_value_list K V) : reverse_iterator := { current := list_end l }

/-- Member `rit.base()`: the wrapped iterator, so `l.rbegin().base()` is `l.end()`
(whereas `*l.rbegin()` is the last element). -/
def reverse_iterator.base (r : reverse_iterator) : iterator := r.current

/-- The node in front of position `it`. -/
def node_before (it : iterator) : key_value_list K V → Option (list_node K V)
  | [] => none
  | [n] => if it = iterator.past_end then some n else none
  | n :: m :: l => if it = iterator.ptr m.addr then some n else node_before it (m :: l)

/-- Dereference `*rit`, that is `*std::prev(rit.base())`. -/
def rderef (l : key_value_list K V) (r : reverse_iterator) : Option (list_node K V) :=
  node_before r.current l

/-- Member `l.pop_back()`; `none` on an empty list. -/
def pop_back : key_value_list K V → Option (key_value_list K V)
  | [] => none
  | n :: l => some ((n :: l).dropLast)

/-- Member `l.front()`; `none` on an empty list. -/
def list_front : key_value_list K V → Option (list_node K V)
  | [] => none
  | n :: _ => some n

end list_model

/-! ## `std::unordered_map<K, iterator>` -/

section table_model

variable {K : Type} [DecidableEq K]

/-- Member `t.find(key)`: the mapped iterator, `none` standing for `t.end()`. -/
def find : key_iter_list K → K → Option iterator
  | [], _ => none
  | (k, it) :: t, key => if k = key then some it else find t key

/-- Member `t.erase(key)`: drop the entry of `key`, if any. -/
def erase (t : key_iter_list K) (key : K) : key_iter_list K :=
  t.filter (fun p => decide (p.1 ≠ key))

/-- Member `t.insert_or_assign(key, it)`: overwrite the entry of `key`, or add one. -/
def insert_or_assign (t : key_iter_list K) (key : K) (it : iterator) : key_iter_list K :=
  match find t key with
  | none => (key, it) :: t
  | some _ => t.map (fun p => if p.1 = key then (key, it) else p)

end table_model

/-! ## The class -/

/-- The data members of `lru_cache<K, V>` (without the mutex). -/
structure lru_cache (K V : Type) where
  m_values : key_value_list K V
  m_key_iter_table : key_iter_list K
  m_max_size : Nat
  deriving DecidableEq, Repr

namespace lru_cache

variable {K V : Type} [DecidableEq K]

/-- Constructor `lru_cache(size_t max_size)`. -/
def create (max_size : Nat) : lru_cache K V :=
  { m_values := [], m_key_iter_table := [], m_max_size := max_size }

/-- Member `size()`: the number of table entries. -/
def size (c : lru_cache K V) : Nat := c.m_key_iter_table.length

/-- Member `capacity()`: the value of `m_max_size`. -/
def capacity (c : lru_cache K V) : Nat := c.m_max_size

/-- Member `empty()`: whether the table is empty. -/
def empty (c : lru_cache K V) : Bool := c.m_key_iter_table.isEmpty

/-- Member `front()`: the outer option is `none` when `m_values.front()` is called on an empty
list; the inner option is the returned `std::optional`. -/
def front (c : lru_cache K V) : Option (Option (K × V)) :=
  if c.empty then some none
  else (list_front c.m_values).map (fun n => some (n.first, n.second))

/-- Member `cached(key)`: whether `find` succeeds. -/
def cached (c : lru_cache K V) (key : K) : Bool := (find c.m_key_iter_table key).isSome

/-- Member `put(key, value)`, statement by statement. -/
def put (c : lru_cache K V) (key : K) (value : V) : Option (lru_cache K V) :=
  -- if (capacity() == 0) return;
  if c.capacity = 0 then some c
  else
    -- auto key_elem = m_key_iter_table.find(key);
    match find c.m_key_iter_table key with
    | none =>
      -- key_elem == m_key_iter_table.end()
      if c.size = c.capacity then
        -- if (size() > 1) m_values.splice(m_values.begin(), m_values, m_values.rbegin().base());
        (if c.size > 1 then
            splice c.m_values (list_begin c.m_values) (rbegin c.m_values).base
          else some c.m_values).bind fun vals =>
        -- auto top = m_values.begin();
        let top := list_begin vals
        -- m_key_iter_table.erase(top->first);
        (deref vals top).bind fun old =>
        let table := erase c.m_key_iter_table old.first
        -- top->first = key;
        (set_first vals top key).bind fun vals1 =>
        -- top->second = value;
        (set_second vals1 top value).map fun vals2 =>
        -- m_key_iter_table.insert_or_assign(key, m_values.begin());
        { c with m_values := vals2,
                 m_key_iter_table := insert_or_assign table key (list_begin vals2) }
      else
        -- m_values.emplace_front(key, value);
        let vals := emplace_front c.m_values key value
        -- m_key_iter_table.insert_or_assign(key, m_values.begin());
        some { c with m_values := vals,
                      m_key_iter_table :=
                        insert_or_assign c.m_key_iter_table key (list_begin vals) }
    | some it =>
      -- key_elem->second->second = value;
      (set_second c.m_values it value).bind fun vals =>
      -- m_values.splice(m_values.begin(), m_values, key_elem->second);
      (splice vals (list_begin vals) it).map fun vals1 =>
      { c with m_values := vals1 }

/-- Member `get(key)`: the new state and the returned `std::optional<V>`. -/
def get (c : lru_cache K V) (key : K) : Option (lru_cache K V × Option V) :=
  -- auto found_elem = m_key_iter_table.find(key);
  match find c.m_key_iter_table key with
  | none => some (c, none)
  | some it =>
    -- m_values.splice(m_values.begin(), m_values, found_elem->second);
    (splice c.m_values (list_begin c.m_values) it).bind fun vals =>
    -- return std::make_optional(found_elem->second->second);
    (deref vals it).map fun n => ({ c with m_values := vals }, some n.second)

/-- One iteration of the loop of `reserve`:
`m_key_iter_table.erase(m_values.rbegin()->first); m_values.pop_back();`. -/
def reserve_step (c : lru_cache K V) : Option (lru_cache K V) :=
  (rderef c.m_values (rbegin c.m_values)).bind fun last =>
  (pop_back c.m_values).map fun vals =>
  { c with m_key_iter_table := erase c.m_key_iter_table last.first, m_values := vals }

/-- The loop `for (size_t i = 0; i < diff; i++)` of `reserve`, `diff` fixed beforehand. -/
def reserve_loop : Nat → lru_cache K V → Option (lru_cache K V)
  | 0, c => some c
  | diff + 1, c => (reserve_step c).bind (reserve_loop diff)

/-- Member `reserve(new_max_size)`: when `new_max_size < size()` the loop runs
`size() - new_max_size` times; then `m_max_size = new_max_size`. -/
def reserve (c : lru_cache K V) (new_max_size : Nat) : Option (lru_cache K V) :=
  (if new_max_size < c.size then reserve_loop (c.size - new_max_size) c else some c).map
    fun c1 => { c1 with m_max_size := new_max_size }

/-- Member `clear()`: both containers are emptied, the capacity stays. -/
def clear (c : lru_cache K V) : lru_cache K V :=
  { c with m_values := [], m_key_iter_table := [] }

/-- The recency list as the (key, value) pairs it stores, most recently used first. -/
def entries (c : lru_cache K V) : List (K × V) :=
  c.m_values.map (fun n => (n.first, n.second))

/-- The table entry that belongs to a node: its key and an iterator to it. -/
def index_entry (n : list_node K V) : K × iterator := (n.first, iterator.ptr n.addr)

/-- Representation invariant of the class: the nodes have pairwise different addresses,
no two nodes store the same key, and the table holds, in some order, exactly one entry
per node, mapping the node's key to an iterator to the node. -/
structure consistent (c : lru_cache K V) : Prop where
  addr_nodup : (c.m_values.map (fun n => n.addr)).Nodup
  key_nodup : (c.m_values.map (fun n => n.first)).Nodup
  table_perm : c.m_key_iter_table.Perm (c.m_values.map index_entry)

/-- A call of one of the four state-changing member functions. -/
inductive operation (K V : Type) where
  | put (key : K) (value : V)
  | get (key : K)
  | reserve (new_max_size : Nat)
  | clear

/-- The state after one call. -/
def apply (c : lru_cache K V) : operation K V → Option (lru_cache K V)
  | operation.put key value => c.put key value
  | operation.get key => (c.get key).map Prod.fst
  | operation.reserve new_max_size => c.reserve new_max_size
  | operation.clear => some c.clear

/-- The state after a sequence of calls, first call first. -/
def run (c : lru_cache K V) : List (operation K V) → Option (lru_cache K V)
  | [] => some c
  | op :: ops => (c.apply op).bind (fun c1 => run c1 ops)

/-! ### Copying and moving -/

/-- The loop `for (auto it = other.m_values.rbegin(); it != other.m_values.rend(); it++)
put(it->first, it->second);` run over the nodes `ns`, given in visiting order. -/
def put_each : lru_cache K V → List (list_node K V) → Option (lru_cache K V)
  | c, [] => some c
  | c, n :: ns => (c.put n.first n.second).bind (fun c1 => put_each c1 ns)

/-- Copy constructor `lru_cache(const lru_cache& other)`, returning the new object; `other`
is a reference to const and is not written.

The member initialiser list names only `m_mutex`, so `m_values` and `m_key_iter_table`
are default-constructed and `m_max_size` has no initialiser: `storage` is the value the
member's storage holds (zero for an object of static storage duration, indeterminate
otherwise). The statement `lru_cache(other.capacity());` in the body is an expression
statement: it creates a temporary cache and destroys it at the semicolon, and does not
touch `*this`. -/
def copy_construct (storage : Nat) (other : lru_cache K V) : Option (lru_cache K V) :=
  let this : lru_cache K V :=
    { m_values := [], m_key_iter_table := [], m_max_size := storage }
  -- lru_cache(other.capacity());
  let _temporary : lru_cache K V := create other.capacity
  -- for (auto it = other.m_values.rbegin(); ...) put(it->first, it->second);
  put_each this other.m_values.reverse

/-- Body of `operator=(const lru_cache& other)`, returning the new `*this`:
`clear();` followed by the loop over `other.m_values`. The list `other.m_values` is read
when the loop starts, after `clear()` has run; `other_values` gives it as a function of
the state of `*this` at that point, so that both a distinct `other` and `other` being
`*this` are covered. -/
def copy_assign_body (this : lru_cache K V)
    (other_values : lru_cache K V → key_value_list K V) : Option (lru_cache K V) :=
  -- clear();
  let c := this.clear
  -- for (auto it = other.m_values.rbegin(); ...) put(it->first, it->second);
  put_each c (other_values c).reverse

/-- Copy assignment `this = other` for two different objects: the new `*this` and the
unchanged `other`. -/
def copy_assign (this other : lru_cache K V) : Option (lru_cache K V × lru_cache K V) :=
  (copy_assign_body this (fun _ => other.m_values)).map (fun c => (c, other))

/-- Copy assignment `c = c`: the parameter `other` is `*this`, so `other.m_values` is the
list of `*this` itself (already cleared when the loop starts). -/
def copy_assign_self (this : lru_cache K V) : Option (lru_cache K V) :=
  copy_assign_body this (fun c => c.m_values)

/-- Move constructor `lru_cache(lru_cache&& other)`: the new object and `other`
afterwards. As in the copy constructor only `m_mutex` is named in the initialiser list,
so both containers start empty and `m_max_size` keeps the value `storage` of its storage;
the body swaps the two containers with those of `other`. -/
def move_construct (storage : Nat) (other : lru_cache K V) : lru_cache K V × lru_cache K V :=
  let this : lru_cache K V :=
    { m_values := [], m_key_iter_table := [], m_max_size := storage }
  -- m_values.swap(other.m_values); m_key_iter_table.swap(other.m_key_iter_table);
  ({ this with m_values := other.m_values, m_key_iter_table := other.m_key_iter_table },
   { other with m_values := this.m_values, m_key_iter_table := this.m_key_iter_table })

/-- Move assignment `this = std::move(other)` for two different objects: the new `*this`
and `other` afterwards. The body swaps the two containers; `m_max_size` is not touched
on either side. -/
def move_assign (this other : lru_cache K V) : lru_cache K V × lru_cache K V :=
  -- m_values.swap(other.m_values); m_key_iter_table.swap(other.m_key_iter_table);
  ({ this with m_values := other.m_values, m_key_iter_table := other.m_key_iter_table },
   { other with m_values := this.m_values, m_key_iter_table := this.m_key_iter_table })

end lru_cache

/-! ## Concrete caches -/

/-- The cache after `lru_cache<int, std::string> c(2); c.put(1, "a"); c.put(2, "b");
c.get(1);`: full, key 1 at the head, key 2 at the tail. -/
def scenario_full : lru_cache Nat String :=
  { m_values := [{ addr := 1, first := 1, second := "a" }, { addr := 2, first := 2, second := "b" }],
    m_key_iter_table := [(2, iterator.ptr 2), (1, iterator.ptr 1)],
    m_max_size := 2 }

/-- The cache after `lru_cache<int, int> c(3); c.put(1, 10); c.put(2, 20); c.put(3, 30);`. -/
def scenario_three : lru_cache Nat Nat :=
  { m_values := [{ addr := 3, first := 3, second := 30 }, { addr := 2, first := 2, second := 20 },
      { addr := 1, first := 1, second := 10 }],
    m_key_iter_table := [(3, iterator.ptr 3), (2, iterator.ptr 2), (1, iterator.ptr 1)],
    m_max_size := 3 }

/-- The cache after `lru_cache<int, int> c(2); c.put(1, 2);`: one entry, room for another. -/
def scenario_room : lru_cache Nat Nat :=
  { m_values := [{ addr := 1, first := 1, second := 2 }],
    m_key_iter_table := [(1, iterator.ptr 1)],
    m_max_size := 2 }

/-- The cache after `lru_cache<int, int> cache(4); cache.put(1, 2); cache.put(3, 4);`,
the source object of the constructor test. -/
def scenario_source : lru_cache Nat Nat :=
  { m_values := [{ addr := 2, first := 3, second := 4 }, { addr := 1, first := 1, second := 2 }],
    m_key_iter_table := [(3, iterator.ptr 2), (1, iterator.ptr 1)],
    m_max_size := 4 }

/-- The cache after `lru_cache<int, int> c(0); c.reserve(1); c.put(1, 2);`: capacity 1,
one entry. -/
def scenario_single : lru_cache Nat Nat :=
  { m_values := [{ addr := 1, first := 1, second := 2 }],
    m_key_iter_table := [(1, iterator.ptr 1)],
    m_max_size := 1 }

/-- A cache of capacity 4 that holds the single entry (7, 8), as after
`lru_cache<int, int> target(4); target.put(7, 8);`, its node living at address 9. -/
def scenario_target : lru_cache Nat Nat :=
  { m_values := [{ addr := 9, first := 7, second := 8 }],
    m_key_iter_table := [(7, iterator.ptr 9)],
    m_max_size := 4 }

/-! ## Lemmas about the list -/

section list_lemmas

variable {K V : Type}

theorem deref_split (l1 l2 : key_value_list K V) (x : list_node K V)
    (h1 : ∀ n ∈ l1, n.addr ≠ x.addr) :
    deref (l1 ++ x :: l2) (iterator.ptr x.addr) = some x := by
  induction l1 with
  | nil => simp [deref]
  | cons n l1 ih =>
    have hn : n.addr ≠ x.addr := h1 n (List.mem_cons_self _ _)
    have ih1 := ih (fun m hm => h1 m (List.mem_cons_of_mem _ hm))
    simp only [deref] at ih1 ⊢
    simp [List.find?, hn, ih1]

theorem deref_mem (l : key_value_list K V) (it : iterator) (x : list_node K V)
    (h : deref l it = some x) : x ∈ l ∧ it = iterator.ptr x.addr := by
  cases it with
  | past_end => simp [deref] at h
  | ptr a =>
    simp only [deref] at h
    have h1 := List.find?_some h
    have h2 := List.mem_of_find?_eq_some h
    simp at h1
    exact ⟨h2, by rw [h1]⟩

theorem remove_node_split (l1 l2 : key_value_list K V) (x : list_node K V)
    (h1 : ∀ n ∈ l1, n.addr ≠ x.addr) :
    remove_node x.addr (l1 ++ x :: l2) = l1 ++ l2 := by
  induction l1 with
  | nil => simp [remove_node]
  | cons n l1 ih =>
    have hn : n.addr ≠ x.addr := h1 n (List.mem_cons_self _ _)
    simp [remove_node, hn, ih (fun m hm => h1 m (List.mem_cons_of_mem _ hm))]

theorem succ_of_split (l1 l2 : key_value_list K V) (x : list_node K V)
    (h1 : ∀ n ∈ l1, n.addr ≠ x.addr) :
    succ_of x.addr (l1 ++ x :: l2) = some (list_begin l2) := by
  induction l1 with
  | nil => simp [succ_of]
  | cons n l1 ih =>
    have hn : n.addr ≠ x.addr := h1 n (List.mem_cons_self _ _)
    simp [succ_of, hn, ih (fun m hm => h1 m (List.mem_cons_of_mem _ hm))]

theorem map_update_split (g : list_node K V → list_node K V) (l1 l2 : key_value_list K V)
    (x : list_node K V) (h1 : ∀ n ∈ l1, n.addr ≠ x.addr) (h2 : ∀ n ∈ l2, n.addr ≠ x.addr) :
    (l1 ++ x :: l2).map (fun n => if n.addr = x.addr then g n else n) = l1 ++ g x :: l2 := by
  have e1 : l1.map (fun n => if n.addr = x.addr then g n else n) = l1 := by
    conv_rhs => rw [← List.map_id l1]
    exact List.map_congr_left (fun n hn => by simp [h1 n hn])
  have e2 : l2.map (fun n => if n.addr = x.addr then g n else n) = l2 := by
    conv_rhs => rw [← List.map_id l2]
    exact List.map_congr_left (fun n hn => by simp [h2 n hn])
  simp [e1, e2]

theorem list_begin_cons (n : list_node K V) (l : key_value_list K V) :
    list_begin (n :: l) = iterator.ptr n.addr := rfl

theorem list_begin_ne_of_not_mem (l : key_value_list K V) (a : Nat)
    (h : ∀ n ∈ l, n.addr ≠ a) : list_begin l ≠ iterator.ptr a := by
  cases l with
  | nil => simp [list_begin]
  | cons m l =>
    have := h m (List.mem_cons_self _ _)
    simp [list_begin, this]

/-- Splicing a node of the list to the front moves it there and keeps the others in
order. -/
theorem splice_begin_split (l1 l2 : key_value_list K V) (x : list_node K V)
    (hnd : ((l1 ++ x :: l2).map (fun n => n.addr)).Nodup) :
    splice (l1 ++ x :: l2) (list_begin (l1 ++ x :: l2)) (iterator.ptr x.addr)
      = some (x :: (l1 ++ l2)) := by
  have h1 : ∀ n ∈ l1, n.addr ≠ x.addr := by
    intro n hn e
    rw [List.map_append, List.nodup_append] at hnd
    exact hnd.2.2 (List.mem_map_of_mem _ hn) (by simp [e])
  cases l1 with
  | nil => simp [splice, next, succ_of, list_begin]
  | cons n l1 =>
    have hn : n.addr ≠ x.addr := h1 n (List.mem_cons_self _ _)
    have hl2 : ∀ m ∈ l2, m.addr ≠ n.addr := by
      intro m hm e
      simp only [List.cons_append, List.map_cons, List.nodup_cons, List.map_append] at hnd
      apply hnd.1
      simp only [List.mem_append, List.mem_cons, List.mem_map]
      exact Or.inr (Or.inr ⟨m, hm, e⟩)
    have hj : iterator.ptr n.addr ≠ list_begin l2 :=
      fun e => list_begin_ne_of_not_mem l2 n.addr hl2 e.symm
    have hd := deref_split (n :: l1) l2 x h1
    have hr := remove_node_split (n :: l1) l2 x h1
    have hs := succ_of_split (n :: l1) l2 x h1
    have hb : list_begin (n :: l1 ++ x :: l2) = iterator.ptr n.addr := rfl
    have hc : ¬ (iterator.ptr n.addr = iterator.ptr x.addr ∨
        iterator.ptr n.addr = list_begin l2) := by
      intro h
      rcases h with h | h
      · exact hn (by injection h)
      · exact hj h
    simp only [splice, next, hs, hd, hr, hb, if_neg hc]
    simp [insert_before]

/-- Splicing the past-the-end iterator to the front relinks nothing. -/
theorem splice_begin_end (l : key_value_list K V) :
    splice l (list_begin l) (rbegin l).base = some l := by
  simp [splice, next, rbegin, reverse_iterator.base, list_end]

theorem rderef_rbegin_append (l : key_value_list K V) (x : list_node K V) :
    rderef (l ++ [x]) (rbegin (l ++ [x])) = some x := by
  simp only [rderef, rbegin, list_end]
  induction l with
  | nil => simp [node_before]
  | cons n l ih =>
    cases l with
    | nil => simp [node_before]
    | cons m l => simpa [node_before] using ih

theorem pop_back_append (l : key_value_list K V) (x : list_node K V) :
    pop_back (l ++ [x]) = some l := by
  cases l with
  | nil => simp [pop_back]
  | cons n l =>
    simp only [List.cons_append, pop_back]
    rw [← List.cons_append, List.dropLast_concat]

theorem nodup_split {α β : Type} (f : α → β) (l1 l2 : List α) (x : α)
    (h : ((l1 ++ x :: l2).map f).Nodup) :
    (∀ n ∈ l1, f n ≠ f x) ∧ (∀ n ∈ l2, f n ≠ f x) ∧ ((l1 ++ l2).map f).Nodup := by
  have hp : ((l1 ++ x :: l2).map f).Perm (f x :: (l1 ++ l2).map f) := by
    rw [← List.map_cons]
    exact List.Perm.map f List.perm_middle
  have h1 := (hp.nodup_iff.1 h)
  rw [List.nodup_cons] at h1
  refine ⟨?_, ?_, h1.2⟩
  · intro n hn e
    exact h1.1 (e ▸ List.mem_map_of_mem f (List.mem_append_left _ hn))
  · intro n hn e
    exact h1.1 (e ▸ List.mem_map_of_mem f (List.mem_append_right _ hn))

end list_lemmas

/-! ## Lemmas about the table -/

section table_lemmas

variable {K : Type} [DecidableEq K]

theorem find_eq_none_iff (t : key_iter_list K) (k : K) :
    find t k = none ↔ ∀ p ∈ t, p.1 ≠ k := by
  induction t with
  | nil => simp [find]
  | cons p t ih =>
    obtain ⟨k1, it⟩ := p
    by_cases h : k1 = k
    · simp [find, h]
    · simp [find, h, ih]

theorem find_mem (t : key_iter_list K) (k : K) (it : iterator) (h : find t k = some it) :
    (k, it) ∈ t := by
  induction t with
  | nil => simp [find] at h
  | cons p t ih =>
    obtain ⟨k1, it1⟩ := p
    by_cases e : k1 = k
    · simp [find, e] at h
      simp [e, h]
    · simp [find, e] at h
      exact List.mem_cons_of_mem _ (ih h)

theorem find_of_mem (t : key_iter_list K) (k : K) (it : iterator)
    (hnd : (t.map Prod.fst).Nodup) (h : (k, it) ∈ t) : find t k = some it := by
  induction t with
  | nil => simp at h
  | cons p t ih =>
    obtain ⟨k1, it1⟩ := p
    simp only [List.map_cons, List.nodup_cons] at hnd
    rcases List.mem_cons.1 h with h | h
    · injection h with e1 e2
      subst e1
      subst e2
      simp [find]
    · have hne : k1 ≠ k := by
        intro e
        subst e
        exact hnd.1 (List.mem_map_of_mem Prod.fst h)
      simp [find, hne, ih hnd.2 h]

theorem find_erase_none (t : key_iter_list K) (k k1 : K) (h : find t k = none) :
    find (erase t k1) k = none := by
  rw [find_eq_none_iff] at h ⊢
  intro p hp
  exact h p (List.mem_of_mem_filter hp)

end table_lemmas

/-! ## Consequences of the representation invariant -/

namespace lru_cache

variable {K V : Type} [DecidableEq K]

theorem consistent.keys_perm {c : lru_cache K V} (hc : c.consistent) :
    (c.m_key_iter_table.map Prod.fst).Perm (c.m_values.map (fun n => n.first)) := by
  have h := hc.table_perm.map Prod.fst
  rw [List.map_map] at h
  exact h

theorem consistent.table_nodup {c : lru_cache K V} (hc : c.consistent) :
    (c.m_key_iter_table.map Prod.fst).Nodup :=
  hc.keys_perm.nodup_iff.2 hc.key_nodup

theorem consistent.size_eq {c : lru_cache K V} (hc : c.consistent) :
    c.size = c.m_values.length := by
  have h := hc.table_perm.length_eq
  simpa [size] using h

theorem consistent.find_split {c : lru_cache K V} (hc : c.consistent) (k : K)
    (it : iterator) (h : find c.m_key_iter_table k = some it) :
    ∃ l1 x l2, c.m_values = l1 ++ x :: l2 ∧ x.first = k ∧ it = iterator.ptr x.addr := by
  have hm := hc.table_perm.mem_iff.1 (find_mem _ _ _ h)
  obtain ⟨x, hx, e⟩ := List.mem_map.1 hm
  obtain ⟨l1, l2, hl⟩ := List.append_of_mem hx
  simp only [index_entry, Prod.mk.injEq] at e
  exact ⟨l1, x, l2, hl, e.1, e.2.symm⟩

theorem consistent.find_node {c : lru_cache K V} (hc : c.consistent)
    (x : list_node K V) (hx : x ∈ c.m_values) :
    find c.m_key_iter_table x.first = some (iterator.ptr x.addr) :=
  gen.find_of_mem _ _ _ hc.table_nodup
    (hc.table_perm.mem_iff.2 (List.mem_map_of_mem index_entry hx))

theorem consistent.find_none_iff {c : lru_cache K V} (hc : c.consistent) (k : K) :
    find c.m_key_iter_table k = none ↔ ∀ n ∈ c.m_values, n.first ≠ k := by
  rw [find_eq_none_iff]
  constructor
  · intro h n hn e
    have := hc.find_node n hn
    exact h _ (find_mem _ _ _ this) e
  · intro h p hp e
    obtain ⟨x, hx, e1⟩ := List.mem_map.1 (hc.table_perm.mem_iff.1 hp)
    apply h x hx
    rw [← e, ← e1]
    rfl

/-! ## What each branch of the member functions computes -/

theorem fresh_addr_gt (l : key_value_list K V) : ∀ n ∈ l, n.addr < fresh_addr l := by
  induction l with
  | nil => simp
  | cons m l ih =>
    intro n hn
    simp only [fresh_addr, List.map_cons, List.foldr_cons] at ih ⊢
    rcases List.mem_cons.1 hn with h | h
    · subst h
      omega
    · have := ih n h
      omega

theorem filter_key_split {β : Type} (f : list_node K V → K × β)
    (hf : ∀ n, (f n).1 = n.first) (l1 l2 : key_value_list K V) (x : list_node K V)
    (hk : ((l1 ++ x :: l2).map (fun n => n.first)).Nodup) :
    ((l1 ++ x :: l2).map f).filter (fun p => decide (p.1 ≠ x.first)) = (l1 ++ l2).map f := by
  obtain ⟨h1, h2, _⟩ := nodup_split (fun n => n.first) l1 l2 x hk
  have e1 : (l1.map f).filter (fun p => decide (p.1 ≠ x.first)) = l1.map f :=
    List.filter_eq_self.2 (fun p hp => by
      obtain ⟨n, hn, rfl⟩ := List.mem_map.1 hp
      simpa [hf] using h1 n hn)
  have e2 : (l2.map f).filter (fun p => decide (p.1 ≠ x.first)) = l2.map f :=
    List.filter_eq_self.2 (fun p hp => by
      obtain ⟨n, hn, rfl⟩ := List.mem_map.1 hp
      simpa [hf] using h2 n hn)
  rw [List.map_append, List.map_cons, List.filter_append, List.filter_cons, e1, e2,
    List.map_append]
  simp [hf]

theorem erase_perm {t : key_iter_list K} (l1 l2 : key_value_list K V) (x : list_node K V)
    (ht : t.Perm ((l1 ++ x :: l2).map index_entry))
    (hk : ((l1 ++ x :: l2).map (fun n => n.first)).Nodup) :
    (erase t x.first).Perm ((l1 ++ l2).map index_entry) := by
  have hp := ht.filter (fun p => decide (p.1 ≠ x.first))
  rw [filter_key_split index_entry (fun _ => rfl) l1 l2 x hk] at hp
  exact hp

/-- A list with the same index entries as the current one, up to order, is consistent
with the current table. -/
theorem consistent.of_index_perm {c : lru_cache K V} (hc : c.consistent)
    (l : key_value_list K V)
    (h : (l.map index_entry).Perm (c.m_values.map index_entry)) :
    ({ c with m_values := l } : lru_cache K V).consistent := by
  have hk : (l.map (fun n => n.first)).Perm (c.m_values.map (fun n => n.first)) := by
    have := h.map Prod.fst
    simpa [List.map_map] using this
  have ha : (l.map (fun n => n.addr)).Perm (c.m_values.map (fun n => n.addr)) := by
    have := h.map (fun p => match p.2 with
      | iterator.ptr a => a
      | iterator.past_end => 0)
    simpa [List.map_map, Function.comp, index_entry] using this
  exact ⟨ha.nodup_iff.2 hc.addr_nodup, hk.nodup_iff.2 hc.key_nodup, hc.table_perm.trans h.symm⟩

theorem put_zero_eq (c : lru_cache K V) (k : K) (v : V) (hcap : c.capacity = 0) :
    c.put k v = some c := by
  simp [put, hcap]

theorem put_hit_eq {c : lru_cache K V} (hc : c.consistent) (hcap : c.capacity ≠ 0)
    (l1 l2 : key_value_list K V) (x : list_node K V) (hl : c.m_values = l1 ++ x :: l2)
    (v : V) :
    c.put x.first v = some { c with m_values := { x with second := v } :: (l1 ++ l2) } := by
  have hf := hc.find_node x (by rw [hl]; simp)
  have hnd := hc.addr_nodup
  rw [hl] at hnd
  obtain ⟨h1, h2, _⟩ := nodup_split (fun n => n.addr) l1 l2 x hnd
  have hd : deref c.m_values (iterator.ptr x.addr) = some x := by
    rw [hl]
    exact deref_split l1 l2 x h1
  have hs : set_second c.m_values (iterator.ptr x.addr) v
      = some (l1 ++ { x with second := v } :: l2) := by
    simp only [set_second, hd]
    rw [hl, map_update_split (fun n => { n with second := v }) l1 l2 x h1 h2]
  have hnd1 : ((l1 ++ { x with second := v } :: l2).map (fun n => n.addr)).Nodup := by
    simpa using hnd
  have hsp : splice (l1 ++ { x with second := v } :: l2)
      (list_begin (l1 ++ { x with second := v } :: l2)) (iterator.ptr x.addr)
      = some ({ x with second := v } :: (l1 ++ l2)) :=
    splice_begin_split l1 l2 { x with second := v } hnd1
  simp only [put, if_neg hcap, hf, hs, Option.some_bind, hsp, Option.map_some']

theorem put_new_room_eq (c : lru_cache K V) (k : K) (v : V) (hcap : c.capacity ≠ 0)
    (hf : find c.m_key_iter_table k = none) (hs : c.size ≠ c.capacity) :
    c.put k v = some { c with
      m_values := { addr := fresh_addr c.m_values, first := k, second := v } :: c.m_values,
      m_key_iter_table := (k, iterator.ptr (fresh_addr c.m_values)) :: c.m_key_iter_table } := by
  simp [put, hcap, hf, hs, insert_or_assign, emplace_front, list_begin]

theorem put_new_full_eq (c : lru_cache K V) (k : K) (v : V) (hcap : c.capacity ≠ 0)
    (hf : find c.m_key_iter_table k = none) (hs : c.size = c.capacity)
    (h : list_node K V) (r : key_value_list K V) (hl : c.m_values = h :: r)
    (hnd : ∀ n ∈ r, n.addr ≠ h.addr) :
    c.put k v = some { c with
      m_values := { addr := h.addr, first := k, second := v } :: r,
      m_key_iter_table := (k, iterator.ptr h.addr) :: erase c.m_key_iter_table h.first } := by
  have hv : (if c.size > 1 then
      splice c.m_values (list_begin c.m_values) (rbegin c.m_values).base
      else some c.m_values) = some c.m_values := by
    split
    · exact splice_begin_end _
    · rfl
  have hb : list_begin c.m_values = iterator.ptr h.addr := by rw [hl]; rfl
  have hd : deref c.m_values (iterator.ptr h.addr) = some h := by
    rw [hl]
    exact deref_split [] r h (by simp)
  have h1 : set_first c.m_values (iterator.ptr h.addr) k
      = some ({ h with first := k } :: r) := by
    simp only [set_first, hd]
    rw [hl]
    exact congrArg some
      (map_update_split (fun n => { n with first := k }) [] r h (by simp) hnd)
  have hd2 : deref ({ h with first := k } :: r) (iterator.ptr h.addr)
      = some { h with first := k } :=
    deref_split [] r { h with first := k } (by simp)
  have h2 : set_second ({ h with first := k } :: r) (iterator.ptr h.addr) v
      = some ({ addr := h.addr, first := k, second := v } :: r) := by
    simp only [set_second, hd2]
    exact congrArg some
      (map_update_split (fun n => { n with second := v }) [] r { h with first := k }
        (by simp) hnd)
  have hi : insert_or_assign (erase c.m_key_iter_table h.first) k (iterator.ptr h.addr)
      = (k, iterator.ptr h.addr) :: erase c.m_key_iter_table h.first := by
    simp [insert_or_assign, find_erase_none _ _ _ hf]
  simp only [put, if_neg hcap, hf, if_pos hs, hv, Option.some_bind]
  simp only [hb, hd, h1, h2, Option.some_bind, Option.map_some', list_begin_cons, hi]

theorem get_miss_eq (c : lru_cache K V) (k : K) (hf : find c.m_key_iter_table k = none) :
    c.get k = some (c, none) := by
  simp [get, hf]

theorem get_hit_eq {c : lru_cache K V} (hc : c.consistent)
    (l1 l2 : key_value_list K V) (x : list_node K V) (hl : c.m_values = l1 ++ x :: l2) :
    c.get x.first = some ({ c with m_values := x :: (l1 ++ l2) }, some x.second) := by
  have hf := hc.find_node x (by rw [hl]; simp)
  have hnd := hc.addr_nodup
  rw [hl] at hnd
  have hsp : splice c.m_values (list_begin c.m_values) (iterator.ptr x.addr)
      = some (x :: (l1 ++ l2)) := by
    rw [hl]
    exact splice_begin_split l1 l2 x hnd
  have hd : deref (x :: (l1 ++ l2)) (iterator.ptr x.addr) = some x :=
    deref_split [] (l1 ++ l2) x (by simp)
  simp only [get, hf, hsp, Option.some_bind, hd, Option.map_some']

/-! ## The representation invariant is kept by every branch -/

theorem consistent_create (n : Nat) : (create n : lru_cache K V).consistent :=
  ⟨List.nodup_nil, List.nodup_nil, List.Perm.nil⟩

theorem consistent_clear (c : lru_cache K V) : c.clear.consistent :=
  ⟨List.nodup_nil, List.nodup_nil, List.Perm.nil⟩

theorem consistent_hit {c : lru_cache K V} (hc : c.consistent)
    (l1 l2 : key_value_list K V) (x : list_node K V) (hl : c.m_values = l1 ++ x :: l2)
    (v : V) :
    ({ c with m_values := { x with second := v } :: (l1 ++ l2) } : lru_cache K V).consistent := by
  apply hc.of_index_perm
  rw [hl]
  have e : index_entry ({ x with second := v } : list_node K V) = index_entry x := rfl
  rw [List.map_cons, e, ← List.map_cons]
  exact List.Perm.map _ List.perm_middle.symm

theorem consistent_new_room {c : lru_cache K V} (hc : c.consistent) (k : K) (v : V)
    (hf : find c.m_key_iter_table k = none) :
    ({ c with
      m_values := { addr := fresh_addr c.m_values, first := k, second := v } :: c.m_values,
      m_key_iter_table := (k, iterator.ptr (fresh_addr c.m_values)) :: c.m_key_iter_table }
      : lru_cache K V).consistent := by
  refine ⟨?_, ?_, ?_⟩
  · simp only [List.map_cons, List.nodup_cons]
    refine ⟨?_, hc.addr_nodup⟩
    intro hm
    obtain ⟨n, hn, e⟩ := List.mem_map.1 hm
    have := fresh_addr_gt c.m_values n hn
    omega
  · simp only [List.map_cons, List.nodup_cons]
    refine ⟨?_, hc.key_nodup⟩
    intro hm
    obtain ⟨n, hn, e⟩ := List.mem_map.1 hm
    exact (hc.find_none_iff k).1 hf n hn e
  · exact List.Perm.cons _ hc.table_perm

theorem consistent_new_full {c : lru_cache K V} (hc : c.consistent) (k : K) (v : V)
    (hf : find c.m_key_iter_table k = none)
    (h : list_node K V) (r : key_value_list K V) (hl : c.m_values = h :: r) :
    ({ c with
      m_values := { addr := h.addr, first := k, second := v } :: r,
      m_key_iter_table := (k, iterator.ptr h.addr) :: erase c.m_key_iter_table h.first }
      : lru_cache K V).consistent := by
  have ha := hc.addr_nodup
  have hk := hc.key_nodup
  have ht := hc.table_perm
  rw [hl] at ha hk ht
  refine ⟨?_, ?_, ?_⟩
  · simpa using ha
  · simp only [List.map_cons, List.nodup_cons] at hk ⊢
    refine ⟨?_, hk.2⟩
    intro hm
    obtain ⟨n, hn, e⟩ := List.mem_map.1 hm
    exact (hc.find_none_iff k).1 hf n (by rw [hl]; exact List.mem_cons_of_mem _ hn) e
  · exact List.Perm.cons _ (erase_perm [] r h ht hk)

theorem reserve_step_eq (c : lru_cache K V) (l : key_value_list K V) (x : list_node K V)
    (hl : c.m_values = l ++ [x]) :
    c.reserve_step = some { c with
      m_key_iter_table := erase c.m_key_iter_table x.first, m_values := l } := by
  simp only [reserve_step, hl, rderef_rbegin_append, pop_back_append, Option.some_bind,
    Option.map_some']

theorem consistent_reserve_step {c : lru_cache K V} (hc : c.consistent)
    (l : key_value_list K V) (x : list_node K V) (hl : c.m_values = l ++ [x]) :
    ({ c with m_key_iter_table := erase c.m_key_iter_table x.first, m_values := l }
      : lru_cache K V).consistent := by
  have ha := hc.addr_nodup
  have hk := hc.key_nodup
  have ht := hc.table_perm
  rw [hl] at ha hk ht
  obtain ⟨_, _, ha1⟩ := nodup_split (fun n => n.addr) l [] x ha
  obtain ⟨_, _, hk1⟩ := nodup_split (fun n => n.first) l [] x hk
  have hp := erase_perm l [] x ht hk
  rw [List.append_nil] at ha1 hk1 hp
  exact ⟨ha1, hk1, hp⟩

/-- The loop of `reserve` pops exactly the last `diff` nodes and their table entries. -/
theorem reserve_loop_spec : ∀ (diff : Nat) (c : lru_cache K V), c.consistent →
    ∀ (l1 l2 : key_value_list K V), c.m_values = l1 ++ l2 → l2.length = diff →
    ∃ c1, reserve_loop diff c = some c1 ∧ c1.m_values = l1 ∧ c1.consistent ∧
      c1.m_max_size = c.m_max_size := by
  intro diff
  induction diff with
  | zero =>
    intro c hc l1 l2 hl hd
    have e : l2 = [] := List.length_eq_zero.1 hd
    subst e
    exact ⟨c, rfl, by simpa using hl, hc, rfl⟩
  | succ d ih =>
    intro c hc l1 l2 hl hd
    rcases List.eq_nil_or_concat l2 with e | ⟨l3, x, e⟩
    · subst e
      simp at hd
    · subst e
      have hl1 : c.m_values = (l1 ++ l3) ++ [x] := by
        rw [hl, List.concat_eq_append, List.append_assoc]
      have hd1 : l3.length = d := by
        simp only [List.concat_eq_append, List.length_append, List.length_singleton] at hd
        omega
      obtain ⟨c1, h1, h2, h3, h4⟩ :=
        ih _ (consistent_reserve_step hc (l1 ++ l3) x hl1) l1 l3 rfl hd1
      refine ⟨c1, ?_, h2, h3, h4⟩
      simp only [reserve_loop, reserve_step_eq c (l1 ++ l3) x hl1, Option.some_bind, h1]

/-- What `reserve` computes on a consistent cache: the first `n` nodes remain. -/
theorem reserve_spec {c : lru_cache K V} (hc : c.consistent) (n : Nat) :
    ∃ c1, c.reserve n = some c1 ∧ c1.m_values = c.m_values.take n ∧ c1.consistent ∧
      c1.m_max_size = n ∧ (c.size ≤ n → c1 = { c with m_max_size := n }) := by
  by_cases h : n < c.size
  · have hlen : (c.m_values.drop n).length = c.size - n := by
      rw [List.length_drop, hc.size_eq]
    obtain ⟨c1, h1, h2, h3, _⟩ :=
      reserve_loop_spec (c.size - n) c hc (c.m_values.take n) (c.m_values.drop n)
        (List.take_append_drop n c.m_values).symm hlen
    refine ⟨{ c1 with m_max_size := n }, ?_, h2, ⟨h3.addr_nodup, h3.key_nodup, h3.table_perm⟩,
      rfl, fun h5 => absurd h (by omega)⟩
    simp only [reserve, if_pos h, h1, Option.map_some']
  · refine ⟨{ c with m_max_size := n }, ?_, ?_, ⟨hc.addr_nodup, hc.key_nodup, hc.table_perm⟩,
      rfl, fun _ => rfl⟩
    · simp only [reserve, if_neg h, Option.map_some']
    · have : c.m_values.length ≤ n := by
        rw [← hc.size_eq]
        omega
      exact (List.take_of_length_le this).symm

/-! ## Observations on a consistent cache -/

theorem cached_iff {c : lru_cache K V} (hc : c.consistent) (k : K) :
    c.cached k = true ↔ k ∈ c.entries.map Prod.fst := by
  have h := hc.find_none_iff k
  simp only [cached, entries, List.map_map, List.mem_map, Function.comp]
  constructor
  · intro hs
    by_contra hn
    have : find c.m_key_iter_table k = none :=
      h.2 (fun n hm e => hn ⟨n, hm, e⟩)
    rw [this] at hs
    simp at hs
  · rintro ⟨n, hm, e⟩
    cases hfind : find c.m_key_iter_table k with
    | none => exact absurd e (h.1 hfind n hm)
    | some it => rfl

theorem front_of_cons {c : lru_cache K V} (hc : c.consistent) (x : list_node K V)
    (r : key_value_list K V) (hl : c.m_values = x :: r) :
    c.front = some (some (x.first, x.second)) := by
  have hs := hc.size_eq
  rw [hl] at hs
  have hne : c.empty = false := by
    cases ht : c.m_key_iter_table with
    | nil => simp [size, ht] at hs
    | cons p t => simp [empty, ht]
  simp [front, hne, hl, list_front]

theorem front_of_nil (c : lru_cache K V) (h : c.size = 0) : c.front = some none := by
  have : c.m_key_iter_table = [] := List.length_eq_zero.1 h
  simp [front, empty, this]

/-- What `put` computes on a consistent cache, whatever branch is taken. -/
theorem put_spec {c : lru_cache K V} (hc : c.consistent) (k : K) (v : V) :
    ∃ c1, c.put k v = some c1 ∧ c1.consistent ∧ c1.capacity = c.capacity ∧
      (c.size ≤ c.capacity → c1.size ≤ c1.capacity) ∧
      (c.capacity ≠ 0 → ∃ a r, c1.m_values = { addr := a, first := k, second := v } :: r) := by
  by_cases hcap : c.capacity = 0
  · exact ⟨c, put_zero_eq c k v hcap, hc, rfl, fun h => h, fun h => absurd hcap h⟩
  · cases hfind : find c.m_key_iter_table k with
    | some it =>
      obtain ⟨l1, x, l2, hl, hx, _⟩ := hc.find_split k it hfind
      subst hx
      exact ⟨_, put_hit_eq hc hcap l1 l2 x hl v, consistent_hit hc l1 l2 x hl v, rfl,
        fun h => h, fun _ => ⟨x.addr, l1 ++ l2, rfl⟩⟩
    | none =>
      by_cases hs : c.size = c.capacity
      · cases hm : c.m_values with
        | nil =>
          have := hc.size_eq
          rw [hm] at this
          simp only [List.length_nil] at this
          omega
        | cons h r =>
          have ha := hc.addr_nodup
          rw [hm] at ha
          have hnd : ∀ n ∈ r, n.addr ≠ h.addr :=
            (nodup_split (fun n => n.addr) [] r h ha).2.1
          have hc1 := consistent_new_full hc k v hfind h r hm
          refine ⟨_, put_new_full_eq c k v hcap hfind hs h r hm hnd, hc1, rfl, ?_,
            fun _ => ⟨h.addr, r, rfl⟩⟩
          intro _
          have e1 := hc1.size_eq
          have e2 := hc.size_eq
          rw [hm] at e2
          simp only [List.length_cons, capacity] at e1 e2 hs ⊢
          omega
      · refine ⟨_, put_new_room_eq c k v hcap hfind hs, consistent_new_room hc k v hfind,
          rfl, ?_, fun _ => ⟨fresh_addr c.m_values, c.m_values, rfl⟩⟩
        intro hle
        simp only [size, capacity, List.length_cons] at hs hle ⊢
        omega

/-- What `get` computes on a consistent cache. -/
theorem get_spec {c : lru_cache K V} (hc : c.consistent) (k : K) :
    ∃ c1 res, c.get k = some (c1, res) ∧ c1.consistent ∧ c1.capacity = c.capacity ∧
      c1.size = c.size := by
  cases hfind : find c.m_key_iter_table k with
  | none => exact ⟨c, none, get_miss_eq c k hfind, hc, rfl, rfl⟩
  | some it =>
    obtain ⟨l1, x, l2, hl, hx, _⟩ := hc.find_split k it hfind
    subst hx
    have h1 := consistent_hit hc l1 l2 x hl x.second
    exact ⟨_, _, get_hit_eq hc l1 l2 x hl, h1, rfl, rfl⟩

/-- One call keeps the representation invariant and the capacity bound. -/
theorem apply_spec {c : lru_cache K V} (hc : c.consistent) (hle : c.size ≤ c.capacity)
    (op : operation K V) :
    ∃ c1, c.apply op = some c1 ∧ c1.consistent ∧ c1.size ≤ c1.capacity := by
  cases op with
  | put k v =>
    obtain ⟨c1, h1, h2, _, h4, _⟩ := put_spec hc k v
    exact ⟨c1, h1, h2, h4 hle⟩
  | get k =>
    obtain ⟨c1, res, h1, h2, h3, h4⟩ := get_spec hc k
    refine ⟨c1, by simp [apply, h1], h2, ?_⟩
    rw [h4, h3]
    exact hle
  | reserve n =>
    obtain ⟨c1, h1, h2, h3, h4, _⟩ := reserve_spec hc n
    refine ⟨c1, h1, h3, ?_⟩
    rw [h3.size_eq, h2]
    simp only [capacity, h4, List.length_take]
    omega
  | clear => exact ⟨c.clear, rfl, consistent_clear c, by simp [clear, size]⟩

/-- Every sequence of calls runs to completion and keeps both invariants. -/
theorem run_spec : ∀ (ops : List (operation K V)) (c : lru_cache K V), c.consistent →
    c.size ≤ c.capacity →
    ∃ c1, c.run ops = some c1 ∧ c1.consistent ∧ c1.size ≤ c1.capacity := by
  intro ops
  induction ops with
  | nil => exact fun c hc hle => ⟨c, rfl, hc, hle⟩
  | cons op ops ih =>
    intro c hc hle
    obtain ⟨c1, h1, h2, h3⟩ := apply_spec hc hle op
    obtain ⟨c2, h4, h5, h6⟩ := ih c1 h2 h3
    exact ⟨c2, by simp [run, h1, h4], h5, h6⟩

theorem consistent.deref_of_mem {c : lru_cache K V} (hc : c.consistent)
    (x : list_node K V) (hx : x ∈ c.m_values) :
    deref c.m_values (iterator.ptr x.addr) = some x := by
  obtain ⟨l1, l2, hl⟩ := List.append_of_mem hx
  have ha := hc.addr_nodup
  rw [hl] at ha ⊢
  exact deref_split l1 l2 x (nodup_split (fun n => n.addr) l1 l2 x ha).1

theorem scenario_full_reached :
    run (create 2) [operation.put 1 "a", operation.put 2 "b", operation.get 1]
      = some scenario_full := by
  decide

theorem scenario_three_reached :
    run (create 3) [operation.put 1 10, operation.put 2 20, operation.put 3 30]
      = some scenario_three := by
  decide

theorem scenario_room_reached :
    run (create 2) [operation.put 1 2] = some scenario_room := by
  decide

theorem scenario_full_consistent : scenario_full.consistent :=
  ⟨by decide, by decide, by decide⟩

theorem scenario_three_consistent : scenario_three.consistent :=
  ⟨by decide, by decide, by decide⟩

theorem scenario_room_consistent : scenario_room.consistent :=
  ⟨by decide, by decide, by decide⟩

/-! ## The claims -/

/-- C1, evaluated on the scenario of the specification: capacity 2; put(1,"a");
put(2,"b"); get(1); put(3,"c"). Before the last call the cache is full, key 1 is at the
head and key 2 at the tail of the recency list, and key 3 is not cached. The last call
overwrites the head node: key 1, the most recently used, is dropped and key 2, the least
recently used, stays cached. -/
theorem put_on_full_cache_overwrites_head :
    (run (create 2) [operation.put 1 "a", operation.put 2 "b", operation.get 1]).map
        (fun c => (c.entries, c.size, c.capacity, c.cached 3))
      = some ([(1, "a"), (2, "b")], 2, 2, false) ∧
    (run (create 2) [operation.put 1 "a", operation.put 2 "b", operation.get 1,
        operation.put 3 "c"]).map (fun c => (c.entries, c.size))
      = some ([(3, "c"), (2, "b")], 2) ∧
    (run (create 2) [operation.put 1 "a", operation.put 2 "b", operation.get 1,
        operation.put 3 "c"]).map (fun c => (c.cached 1, c.cached 2, c.cached 3))
      = some (false, true, true) :=
  ⟨by decide, by decide, by decide⟩

/-- C2: on a cache with capacity() > 0, put(k, v) completes, and afterwards front()
is (k, v), cached(k) is true and get(k) returns v, whichever branch of put ran. -/
theorem put_makes_entry_front (c : lru_cache K V) (hc : c.consistent)
    (hcap : 0 < c.capacity) (k : K) (v : V) :
    ∃ c1, c.put k v = some c1 ∧ c1.front = some (some (k, v)) ∧ c1.cached k = true ∧
      ∃ c2, c1.get k = some (c2, some v) := by
  obtain ⟨c1, h1, h2, _, _, h5⟩ := put_spec hc k v
  obtain ⟨a, r, hl⟩ := h5 (by omega)
  refine ⟨c1, h1, front_of_cons h2 _ r hl, ?_, _, get_hit_eq h2 [] r _ hl⟩
  have := h2.find_node { addr := a, first := k, second := v } (by rw [hl]; simp)
  simp only [cached]
  rw [this]
  rfl

theorem put_makes_entry_front_witness :
    scenario_full.consistent ∧ 0 < scenario_full.capacity ∧
    ∃ c1, scenario_full.put 3 "c" = some c1 ∧ c1.front = some (some (3, "c")) ∧
      c1.cached 3 = true ∧ ∃ c2, c1.get 3 = some (c2, some "c") :=
  ⟨scenario_full_consistent, by decide,
    put_makes_entry_front scenario_full scenario_full_consistent (by decide) 3 "c"⟩

/-- C3: on a consistent cache that stores (k, v), get(k) returns v; afterwards front()
is (k, v), the entries are (k, v) followed by the other entries in their previous
order, so the stored pairs are the same, and size() and capacity() are unchanged. -/
theorem get_hit_moves_entry_to_head (c : lru_cache K V) (hc : c.consistent) (k : K) (v : V)
    (hkv : (k, v) ∈ c.entries) :
    ∃ c1, c.get k = some (c1, some v) ∧ c1.front = some (some (k, v)) ∧
      c1.entries = (k, v) :: c.entries.filter (fun e => decide (e.1 ≠ k)) ∧
      c1.entries.Perm c.entries ∧ c1.size = c.size ∧ c1.capacity = c.capacity := by
  obtain ⟨x, hx, e⟩ := List.mem_map.1 hkv
  obtain ⟨l1, l2, hl⟩ := List.append_of_mem hx
  simp only [Prod.mk.injEq] at e
  obtain ⟨ek, ev⟩ := e
  subst ek
  subst ev
  have hk := hc.key_nodup
  rw [hl] at hk
  have hc1 := consistent_hit hc l1 l2 x hl x.second
  refine ⟨_, get_hit_eq hc l1 l2 x hl, front_of_cons hc1 x (l1 ++ l2) rfl, ?_, ?_, rfl, rfl⟩
  · simp only [entries, hl]
    rw [filter_key_split (fun n => (n.first, n.second)) (fun _ => rfl) l1 l2 x hk]
    rfl
  · simp only [entries, hl]
    exact List.Perm.map _ List.perm_middle.symm

theorem get_hit_moves_entry_to_head_witness :
    scenario_full.consistent ∧ (2, "b") ∈ scenario_full.entries ∧
    ∃ c1, scenario_full.get 2 = some (c1, some "b") ∧ c1.front = some (some (2, "b")) ∧
      c1.entries = (2, "b") :: scenario_full.entries.filter (fun e => decide (e.1 ≠ 2)) ∧
      c1.entries.Perm scenario_full.entries ∧ c1.size = scenario_full.size ∧
      c1.capacity = scenario_full.capacity :=
  ⟨scenario_full_consistent, by decide,
    get_hit_moves_entry_to_head scenario_full scenario_full_consistent 2 "b" (by decide)⟩

/-- C4: get(k) for a key that is not cached returns an empty optional and leaves the
cache exactly as it was: list, table and capacity, hence front() and size() too. -/
theorem get_miss_leaves_state (c : lru_cache K V) (k : K) (hk : c.cached k = false) :
    c.get k = some (c, none) := by
  apply get_miss_eq
  cases hfind : find c.m_key_iter_table k with
  | none => rfl
  | some it => simp [cached, hfind] at hk

theorem get_miss_leaves_state_witness :
    scenario_full.cached 7 = false ∧ scenario_full.get 7 = some (scenario_full, none) :=
  ⟨by decide, get_miss_leaves_state scenario_full 7 (by decide)⟩

/-- C5: on a consistent cache reserve(n) completes and sets capacity() to n; the entries
afterwards are the first n entries of the recency list, in order and with their values;
exactly the keys among them are cached; when n >= size() only the capacity changes; the
final size is min(size_before, n). -/
theorem reserve_keeps_first_entries (c : lru_cache K V) (hc : c.consistent) (n : Nat) :
    ∃ c1, c.reserve n = some c1 ∧ c1.capacity = n ∧ c1.entries = c.entries.take n ∧
      (∀ k, c1.cached k = true ↔ k ∈ (c.entries.take n).map Prod.fst) ∧
      (c.size ≤ n → c1.m_values = c.m_values ∧ c1.m_key_iter_table = c.m_key_iter_table) ∧
      c1.size = min c.size n := by
  obtain ⟨c1, h1, h2, h3, h4, h5⟩ := reserve_spec hc n
  have he : c1.entries = c.entries.take n := by
    simp only [entries, h2, List.map_take]
  refine ⟨c1, h1, h4, he, ?_, ?_, ?_⟩
  · intro k
    rw [cached_iff h3, he]
  · intro hle
    rw [h5 hle]
    exact ⟨rfl, rfl⟩
  · rw [h3.size_eq, h2, hc.size_eq, List.length_take, Nat.min_comm]

theorem reserve_keeps_first_entries_witness :
    scenario_three.consistent ∧
    ∃ c1, scenario_three.reserve 1 = some c1 ∧ c1.capacity = 1 ∧
      c1.entries = scenario_three.entries.take 1 ∧
      (∀ k, c1.cached k = true ↔ k ∈ (scenario_three.entries.take 1).map Prod.fst) ∧
      (scenario_three.size ≤ 1 → c1.m_values = scenario_three.m_values ∧
        c1.m_key_iter_table = scenario_three.m_key_iter_table) ∧
      c1.size = min scenario_three.size 1 :=
  ⟨scenario_three_consistent, reserve_keeps_first_entries scenario_three scenario_three_consistent 1⟩

/-- C6: every sequence of put, get, reserve and clear on a freshly constructed cache
runs to completion, and after each call of the sequence size() <= capacity(). -/
theorem size_le_capacity_after_each_call (n : Nat) (ops : List (operation K V)) (i : Nat) :
    ∃ c, run (create n) (ops.take i) = some c ∧ c.size ≤ c.capacity := by
  obtain ⟨c, h1, _, h3⟩ :=
    run_spec (ops.take i) (create n) (consistent_create n) (Nat.zero_le _)
  exact ⟨c, h1, h3⟩

/-- C7: in every state reached from a constructed cache by put, get, reserve and clear,
the table has as many entries as the list (both equal size()), every table entry holds an
iterator to a node of the list whose stored key is the entry's key, and no two nodes
store the same key. -/
theorem index_matches_list_always (n : Nat) (ops : List (operation K V)) :
    ∃ c, run (create n) ops = some c ∧
      c.m_key_iter_table.length = c.m_values.length ∧ c.size = c.m_values.length ∧
      (∀ k it, (k, it) ∈ c.m_key_iter_table →
        ∃ x, deref c.m_values it = some x ∧ x.first = k) ∧
      (c.m_values.map (fun x => x.first)).Nodup := by
  obtain ⟨c, h1, h2, _⟩ := run_spec ops (create n) (consistent_create n) (Nat.zero_le _)
  refine ⟨c, h1, h2.size_eq, h2.size_eq, ?_, h2.key_nodup⟩
  intro k it hm
  obtain ⟨x, hx, e⟩ := List.mem_map.1 (h2.table_perm.mem_iff.1 hm)
  simp only [index_entry, Prod.mk.injEq] at e
  refine ⟨x, ?_, e.1⟩
  rw [← e.2]
  exact h2.deref_of_mem x hx

/-- C8: on a consistent cache with capacity() > 0, put(k, v) for a cached key k
completes; the entries afterwards are (k, v) followed by the entries of the other keys
with their values in their previous order; the table, hence size() and the set of cached
keys, is unchanged. -/
theorem put_cached_key_updates_entry (c : lru_cache K V) (hc : c.consistent)
    (hcap : 0 < c.capacity) (k : K) (v : V) (hk : c.cached k = true) :
    ∃ c1, c.put k v = some c1 ∧
      c1.entries = (k, v) :: c.entries.filter (fun e => decide (e.1 ≠ k)) ∧
      c1.m_key_iter_table = c.m_key_iter_table ∧ c1.size = c.size ∧
      (∀ k1, c1.cached k1 = c.cached k1) ∧ c1.capacity = c.capacity := by
  cases hfind : find c.m_key_iter_table k with
  | none => simp [cached, hfind] at hk
  | some it =>
    obtain ⟨l1, x, l2, hl, hx, _⟩ := hc.find_split k it hfind
    subst hx
    have hkn := hc.key_nodup
    rw [hl] at hkn
    refine ⟨_, put_hit_eq hc (by omega) l1 l2 x hl v, ?_, rfl, rfl, fun _ => rfl, rfl⟩
    simp only [entries, hl]
    rw [filter_key_split (fun n => (n.first, n.second)) (fun _ => rfl) l1 l2 x hkn]
    rfl

theorem put_cached_key_updates_entry_witness :
    scenario_full.consistent ∧ 0 < scenario_full.capacity ∧ scenario_full.cached 2 = true ∧
    ∃ c1, scenario_full.put 2 "z" = some c1 ∧
      c1.entries = (2, "z") :: scenario_full.entries.filter (fun e => decide (e.1 ≠ 2)) ∧
      c1.m_key_iter_table = scenario_full.m_key_iter_table ∧ c1.size = scenario_full.size ∧
      (∀ k1, c1.cached k1 = scenario_full.cached k1) ∧
      c1.capacity = scenario_full.capacity :=
  ⟨scenario_full_consistent, by decide, by decide,
    put_cached_key_updates_entry scenario_full scenario_full_consistent (by decide) 2 "z"
      (by decide)⟩

/-- C9: with size() < capacity(), put(k, v) for a key that is not cached completes and
links a new node holding (k, v) in front of the list: the entries afterwards are (k, v)
followed by all previous entries in their order, size() grows by one, k is cached and
every other key is cached exactly when it was before. -/
theorem put_new_key_inserts_at_head (c : lru_cache K V) (hlt : c.size < c.capacity)
    (k : K) (v : V) (hk : c.cached k = false) :
    ∃ c1, c.put k v = some c1 ∧ c1.entries = (k, v) :: c.entries ∧
      c1.size = c.size + 1 ∧ c1.cached k = true ∧
      (∀ k1, k1 ≠ k → c1.cached k1 = c.cached k1) ∧ c1.capacity = c.capacity := by
  have hfind : find c.m_key_iter_table k = none := by
    cases hf : find c.m_key_iter_table k with
    | none => rfl
    | some it => simp [cached, hf] at hk
  refine ⟨_, put_new_room_eq c k v (by omega) hfind (by omega), rfl, rfl, ?_, ?_, rfl⟩
  · simp [cached, find]
  · intro k1 hne
    simp [cached, find, Ne.symm hne]

theorem put_new_key_inserts_at_head_witness :
    scenario_room.size < scenario_room.capacity ∧ scenario_room.cached 5 = false ∧
    ∃ c1, scenario_room.put 5 6 = some c1 ∧ c1.entries = (5, 6) :: scenario_room.entries ∧
      c1.size = scenario_room.size + 1 ∧ c1.cached 5 = true ∧
      (∀ k1, k1 ≠ 5 → c1.cached k1 = scenario_room.cached k1) ∧
      c1.capacity = scenario_room.capacity :=
  ⟨by decide, by decide, put_new_key_inserts_at_head scenario_room (by decide) 5 6 (by decide)⟩

/-- C10 fails as stated: after `lru_cache<int, int> src(4); src.put(1, 2); src.put(3, 4);
lru_cache<int, int> dst(0); dst = std::move(src);` the cache `dst` is consistent, has
capacity() == 0 and holds the two entries of `src`. put(3, 9) on it is a no-op, and
afterwards cached(3) is true and front() is (3, 4), not false and empty. -/
theorem put_capacity_zero_on_cache_holding_entries :
    (move_assign (create 0) scenario_source).1.capacity = 0 ∧
    (move_assign (create 0) scenario_source).1.consistent ∧
    (move_assign (create 0) scenario_source).1.size = 2 ∧
    (move_assign (create 0) scenario_source).1.put 3 9
      = some (move_assign (create 0) scenario_source).1 ∧
    ((move_assign (create 0) scenario_source).1.put 3 9).map (fun c => c.cached 3)
      = some true ∧
    ((move_assign (create 0) scenario_source).1.put 3 9).map front
      = some (some (some (3, 4))) ∧
    ¬ (((move_assign (create 0) scenario_source).1.put 3 9).map (fun c => c.cached 3)
        = some false ∧
       ((move_assign (create 0) scenario_source).1.put 3 9).map front = some (some none)) :=
  ⟨by decide, ⟨by decide, by decide, by decide⟩, by decide, by decide, by decide, by decide,
    by decide⟩

/-- C10 as amended: with capacity() == 0, put(k, v) returns at once and leaves the cache
exactly as it was, so size(), cached(k) and front() answer as before the call. When the
cache respects size() <= capacity(), size() is 0, cached(k) is false and front() is
empty; this is the case in every state reached from a constructed cache by put, get,
reserve and clear. -/
theorem put_capacity_zero_is_noop (c : lru_cache K V) (k : K) (v : V)
    (h0 : c.capacity = 0) :
    c.put k v = some c ∧
      (c.size ≤ c.capacity → c.size = 0 ∧ c.cached k = false ∧ c.front = some none) ∧
      (∀ (n : Nat) (ops : List (operation K V)), run (create n) ops = some c →
        c.size = 0 ∧ c.cached k = false ∧ c.front = some none) := by
  have hzero : c.size ≤ c.capacity →
      c.size = 0 ∧ c.cached k = false ∧ c.front = some none := by
    intro hle
    have hs : c.size = 0 := by omega
    have ht : c.m_key_iter_table = [] := List.length_eq_zero.1 hs
    exact ⟨hs, by simp [cached, ht, find], front_of_nil c hs⟩
  refine ⟨put_zero_eq c k v h0, hzero, ?_⟩
  intro n ops hrun
  obtain ⟨c1, h1, _, h3⟩ := run_spec ops (create n) (consistent_create n) (Nat.zero_le _)
  rw [h1] at hrun
  injection hrun with e
  subst e
  exact hzero h3

theorem put_capacity_zero_is_noop_witness :
    (create 0 : lru_cache Nat Nat).capacity = 0 ∧
    ((create 0 : lru_cache Nat Nat).put 1 1 = some (create 0) ∧
      ((create 0 : lru_cache Nat Nat).size ≤ (create 0 : lru_cache Nat Nat).capacity →
        (create 0 : lru_cache Nat Nat).size = 0 ∧
        (create 0 : lru_cache Nat Nat).cached 1 = false ∧
        (create 0 : lru_cache Nat Nat).front = some none) ∧
      (∀ (n : Nat) (ops : List (operation Nat Nat)),
        run (create n) ops = some (create 0 : lru_cache Nat Nat) →
        (create 0 : lru_cache Nat Nat).size = 0 ∧
        (create 0 : lru_cache Nat Nat).cached 1 = false ∧
        (create 0 : lru_cache Nat Nat).front = some none)) :=
  ⟨rfl, put_capacity_zero_is_noop (create 0) 1 1 rfl⟩

/-! ## Copying and moving -/

/-- The replay loop of the copy operations completes on a consistent cache and keeps the
representation invariant, the capacity and the capacity bound. -/
theorem put_each_spec : ∀ (ns : List (list_node K V)) (c : lru_cache K V), c.consistent →
    c.size ≤ c.capacity →
    ∃ c1, put_each c ns = some c1 ∧ c1.consistent ∧ c1.size ≤ c1.capacity ∧
      c1.capacity = c.capacity := by
  intro ns
  induction ns with
  | nil => exact fun c hc hle => ⟨c, rfl, hc, hle, rfl⟩
  | cons n ns ih =>
    intro c hc hle
    obtain ⟨c1, h1, h2, h3, h4, _⟩ := put_spec hc n.first n.second
    obtain ⟨c2, h5, h6, h7, h8⟩ := ih c1 h2 (h4 hle)
    exact ⟨c2, by simp [put_each, h1, h5], h6, h7, h8.trans h3⟩

/-- The copy constructor completes for every source and every value of the storage of
`m_max_size`, and that value is the capacity of the new object. -/
theorem copy_construct_spec (storage : Nat) (other : lru_cache K V) :
    ∃ c, copy_construct storage other = some c ∧ c.capacity = storage ∧ c.consistent ∧
      c.size ≤ c.capacity := by
  obtain ⟨c, h1, h2, h3, h4⟩ :=
    put_each_spec other.m_values.reverse
      ({ m_values := [], m_key_iter_table := [], m_max_size := storage } : lru_cache K V)
      ⟨List.nodup_nil, List.nodup_nil, List.Perm.nil⟩ (Nat.zero_le _)
  exact ⟨c, h1, h4, h2, h3⟩

/-- Copy assignment between two objects completes; the target keeps its own capacity and
respects it, and the source is returned as it was. -/
theorem copy_assign_spec (this other : lru_cache K V) :
    ∃ c, copy_assign this other = some (c, other) ∧ c.capacity = this.capacity ∧
      c.consistent ∧ c.size ≤ c.capacity := by
  obtain ⟨c, h1, h2, h3, h4⟩ :=
    put_each_spec other.m_values.reverse this.clear (consistent_clear this) (Nat.zero_le _)
  refine ⟨c, ?_, h4, h2, h3⟩
  simp only [copy_assign, copy_assign_body, h1, Option.map_some']

/-- When every node brings a new key and there is room for all of them, the replay loop
links them one after the other at the head: the last node visited ends up first. -/
theorem put_each_replay : ∀ (ns : List (list_node K V)) (c : lru_cache K V), c.consistent →
    c.size + ns.length ≤ c.capacity → (ns.map (fun n => n.first)).Nodup →
    (∀ n ∈ ns, find c.m_key_iter_table n.first = none) →
    ∃ c1, put_each c ns = some c1 ∧
      c1.entries = ns.reverse.map (fun n => (n.first, n.second)) ++ c.entries ∧
      c1.consistent ∧ c1.capacity = c.capacity := by
  intro ns
  induction ns with
  | nil => exact fun c hc _ _ _ => ⟨c, rfl, by simp, hc, rfl⟩
  | cons n ns ih =>
    intro c hc hle hnd hnew
    simp only [List.length_cons] at hle
    simp only [List.map_cons, List.nodup_cons] at hnd
    have hf := hnew n (List.mem_cons_self _ _)
    have hput := put_new_room_eq c n.first n.second (by omega) hf (by omega)
    have hc1 := consistent_new_room hc n.first n.second hf
    have hnew1 : ∀ m ∈ ns, find ((n.first, iterator.ptr (fresh_addr c.m_values)) ::
        c.m_key_iter_table) m.first = none := by
      intro m hm
      have hne : n.first ≠ m.first := fun e =>
        hnd.1 (e ▸ List.mem_map_of_mem (fun n => n.first) hm)
      simp only [find, if_neg hne]
      exact hnew m (List.mem_cons_of_mem _ hm)
    obtain ⟨c2, h1, h2, h3, h4⟩ := ih _ hc1
      (by simp only [size, capacity, List.length_cons] at hle ⊢; omega) hnd.2 hnew1
    refine ⟨c2, by simp only [put_each, hput, Option.some_bind, h1], ?_, h3, h4⟩
    rw [h2]
    simp [entries]

/-- With room for all of the source's entries, the `clear()` and replay of copy
assignment give the target exactly the source's entries in the source's order; the
target's capacity stays what it was. -/
theorem copy_assign_copies_when_room (this other : lru_cache K V) (ho : other.consistent)
    (hroom : other.size ≤ this.capacity) :
    ∃ c, copy_assign this other = some (c, other) ∧ c.entries = other.entries ∧
      c.capacity = this.capacity := by
  have hlen := ho.size_eq
  have hnd : ((other.m_values.reverse).map (fun n => n.first)).Nodup := by
    rw [List.map_reverse]
    exact List.nodup_reverse.2 ho.key_nodup
  obtain ⟨c, h1, h2, _, h4⟩ :=
    put_each_replay other.m_values.reverse this.clear (consistent_clear this)
      (by simp only [size, capacity, clear, List.length_nil, List.length_reverse] at hlen hroom ⊢
          omega)
      hnd (fun _ _ => rfl)
  refine ⟨c, by simp only [copy_assign, copy_assign_body, h1, Option.map_some'], ?_, h4⟩
  rw [h2]
  simp [entries, clear]

/-- With a storage value that leaves room for all of the source's entries, the replay of
the copy constructor gives the new object the source's entries in the source's order. -/
theorem copy_construct_copies_when_room (storage : Nat) (other : lru_cache K V)
    (ho : other.consistent) (hroom : other.size ≤ storage) :
    ∃ c, copy_construct storage other = some c ∧ c.entries = other.entries ∧
      c.capacity = storage := by
  have hlen := ho.size_eq
  have hnd : ((other.m_values.reverse).map (fun n => n.first)).Nodup := by
    rw [List.map_reverse]
    exact List.nodup_reverse.2 ho.key_nodup
  obtain ⟨c, h1, h2, _, h4⟩ :=
    put_each_replay other.m_values.reverse
      ({ m_values := [], m_key_iter_table := [], m_max_size := storage } : lru_cache K V)
      ⟨List.nodup_nil, List.nodup_nil, List.Perm.nil⟩
      (by simp only [size, capacity, List.length_nil, List.length_reverse] at hlen hroom ⊢
          omega)
      hnd (fun _ _ => rfl)
  refine ⟨c, h1, ?_, h4⟩
  rw [h2]
  simp [entries]

theorem scenario_source_reached :
    run (create 4) [operation.put 1 2, operation.put 3 4] = some scenario_source := by
  decide

theorem scenario_single_reached :
    run (create 0) [operation.reserve 1, operation.put 1 2] = some scenario_single := by
  decide

theorem scenario_single_consistent : scenario_single.consistent :=
  ⟨by decide, by decide, by decide⟩

theorem scenario_source_consistent : scenario_source.consistent :=
  ⟨by decide, by decide, by decide⟩

theorem scenario_target_consistent : scenario_target.consistent :=
  ⟨by decide, by decide, by decide⟩

/-- Copy assignment of a cache to itself returns the cleared cache. -/
theorem copy_assign_self_eq (c : lru_cache K V) : copy_assign_self c = some c.clear := by
  simp [copy_assign_self, copy_assign_body, clear, put_each]

/-- C11, evaluated: the copy constructor completes for every source and its result has
the capacity found in the storage of `m_max_size`, whatever the source's capacity. For
the source of the constructor test (capacity 4 after put(1,2), put(3,4)) and zeroed
storage the copy has capacity 0 and no entries: cached(1) is false and front() is empty.
With storage value 1 the copy holds only (3,4). -/
theorem copy_constructor_ignores_source_capacity :
    (∀ (storage : Nat) (other : lru_cache Nat Nat),
      ∃ c, copy_construct storage other = some c ∧ c.capacity = storage) ∧
    scenario_source.capacity = 4 ∧
    scenario_source.entries = [(3, 4), (1, 2)] ∧
    (copy_construct 0 scenario_source).map capacity = some 0 ∧
    (copy_construct 0 scenario_source).map entries = some [] ∧
    (copy_construct 0 scenario_source).map (fun c => c.cached 1) = some false ∧
    (copy_construct 0 scenario_source).map front = some (some none) ∧
    (copy_construct 1 scenario_source).map entries = some [(3, 4)] :=
  ⟨fun storage other =>
      (copy_construct_spec storage other).imp (fun _ h => ⟨h.1, h.2.1⟩),
    by decide, by decide, by decide, by decide, by decide, by decide, by decide⟩

/-- C12, evaluated: copy assignment completes and the target keeps its own capacity,
whatever the source's. Assigning the source of the constructor test (capacity 4, entries
(3,4), (1,2)) to an empty cache of capacity 1 leaves the target with capacity 1 and the
single entry (3,4); assigning it to a cache of capacity 0 leaves the target empty. -/
theorem copy_assignment_keeps_target_capacity :
    (∀ (this other : lru_cache Nat Nat),
      ∃ c, copy_assign this other = some (c, other) ∧ c.capacity = this.capacity) ∧
    scenario_source.capacity = 4 ∧
    scenario_source.entries = [(3, 4), (1, 2)] ∧
    (copy_assign (create 1) scenario_source).map (fun r => r.1.capacity) = some 1 ∧
    (copy_assign (create 1) scenario_source).map (fun r => r.1.entries) = some [(3, 4)] ∧
    (copy_assign (create 1) scenario_source).map (fun r => r.1.cached 1) = some false ∧
    (copy_assign (create 0) scenario_source).map (fun r => r.1.entries) = some [] ∧
    (copy_assign (create 0) scenario_source).map (fun r => r.1.capacity) = some 0 :=
  ⟨fun this other =>
      (copy_assign_spec this other).imp (fun _ h => ⟨h.1, h.2.1⟩),
    by decide, by decide, by decide, by decide, by decide, by decide, by decide⟩

/-- C13, evaluated: the move constructor hands the source's entries to the new object
and leaves the source empty, but the new object's capacity is the value found in the
storage of `m_max_size`, not the source's capacity: for the source of the constructor
test (capacity 4) and zeroed storage the new object has capacity 0 and size 2. -/
theorem move_constructor_ignores_source_capacity :
    (∀ (storage : Nat) (other : lru_cache Nat Nat),
      (move_construct storage other).1.capacity = storage ∧
      (move_construct storage other).1.entries = other.entries ∧
      (move_construct storage other).2.size = 0) ∧
    scenario_source.capacity = 4 ∧
    (move_construct 0 scenario_source).1.capacity = 0 ∧
    (move_construct 0 scenario_source).1.size = 2 ∧
    (move_construct 0 scenario_source).1.entries = [(3, 4), (1, 2)] :=
  ⟨fun _ _ => ⟨rfl, rfl, rfl⟩, by decide, by decide, by decide, by decide⟩

/-- C14 fails as stated: both caches are consistent and have capacity 4, the target holds
(7,8) and the source holds (3,4), (1,2). After `target = std::move(source)` the target
holds the source's entries, and the source is not empty: it holds the entry (7,8) that
the target held before. -/
theorem move_assignment_leaves_source_with_target_entries :
    scenario_target.consistent ∧ scenario_source.consistent ∧
    scenario_target.capacity = scenario_source.capacity ∧
    (move_assign scenario_target scenario_source).1.entries = scenario_source.entries ∧
    (move_assign scenario_target scenario_source).2.entries = [(7, 8)] ∧
    ¬ ((move_assign scenario_target scenario_source).2.m_values = [] ∧
       (move_assign scenario_target scenario_source).2.m_key_iter_table = [] ∧
       (move_assign scenario_target scenario_source).2.size = 0) :=
  ⟨scenario_target_consistent, scenario_source_consistent, by decide, by decide, by decide,
    by decide⟩

/-- C14 as amended: move assignment between two different caches exchanges the recency
lists and the key indexes. The target ends with exactly the source's prior entries in
their order (so front() and cached() answer as the source did), the source ends with the
target's prior list and index, and the source has size() == 0 exactly when the target was
empty before. Both caches stay consistent. -/
theorem move_assignment_exchanges_contents (this other : lru_cache K V) :
    (move_assign this other).1.m_values = other.m_values ∧
    (move_assign this other).1.m_key_iter_table = other.m_key_iter_table ∧
    (move_assign this other).1.entries = other.entries ∧
    (move_assign this other).1.front = other.front ∧
    (∀ k, (move_assign this other).1.cached k = other.cached k) ∧
    (move_assign this other).2.m_values = this.m_values ∧
    (move_assign this other).2.m_key_iter_table = this.m_key_iter_table ∧
    (move_assign this other).2.entries = this.entries ∧
    ((move_assign this other).2.size = 0 ↔ this.size = 0) ∧
    (this.consistent → other.consistent →
      (move_assign this other).1.consistent ∧ (move_assign this other).2.consistent) :=
  ⟨rfl, rfl, rfl, rfl, fun _ => rfl, rfl, rfl, rfl, Iff.rfl,
    fun h1 h2 => ⟨⟨h2.addr_nodup, h2.key_nodup, h2.table_perm⟩,
      ⟨h1.addr_nodup, h1.key_nodup, h1.table_perm⟩⟩⟩

/-- C15, evaluated: an empty cache of capacity 1 and a cache of capacity 3 that holds
three entries both satisfy size() <= capacity(). After move assignment of the second to
the first, the first has size 3 and capacity 1, and a later put of a new key raises its
size to 4. -/
theorem move_assignment_breaks_capacity_bound :
    (create 1 : lru_cache Nat Nat).size ≤ (create 1 : lru_cache Nat Nat).capacity ∧
    scenario_three.size ≤ scenario_three.capacity ∧
    (move_assign (create 1) scenario_three).1.size = 3 ∧
    (move_assign (create 1) scenario_three).1.capacity = 1 ∧
    ((move_assign (create 1) scenario_three).1.put 9 9).map size = some 4 ∧
    ((move_assign (create 1) scenario_three).1.put 9 9).map capacity = some 1 :=
  ⟨by decide, by decide, by decide, by decide, by decide, by decide⟩

/-- C16, evaluated: copy assignment of a cache to itself clears it. The cache of the
constructor test holds (3,4), (1,2) before `cache = cache` and nothing afterwards; only
the capacity survives. -/
theorem copy_self_assignment_empties_cache :
    (∀ c : lru_cache Nat Nat, copy_assign_self c = some c.clear) ∧
    scenario_source.entries = [(3, 4), (1, 2)] ∧
    (copy_assign_self scenario_source).map entries = some [] ∧
    (copy_assign_self scenario_source).map size = some 0 ∧
    (copy_assign_self scenario_source).map (fun c => c.cached 3) = some false ∧
    (copy_assign_self scenario_source).map capacity = some 4 :=
  ⟨copy_assign_self_eq, by decide, by decide, by decide, by decide, by decide⟩

/-- C18: on a consistent cache of capacity 1 whose only entry is (k0, v0), put(k, v)
with k != k0 completes and reuses the single node: afterwards the list is that node
holding (k, v), cached(k0) is false, get(k0) returns empty and changes nothing, front()
is (k, v), size() is 1 and the table's only key is k. -/
theorem put_replaces_single_entry (c : lru_cache K V) (hc : c.consistent)
    (hcap : c.capacity = 1) (k0 k : K) (v0 v : V) (hent : c.entries = [(k0, v0)])
    (hne : k ≠ k0) :
    ∃ c1, c.put k v = some c1 ∧ c1.cached k0 = false ∧ c1.get k0 = some (c1, none) ∧
      c1.front = some (some (k, v)) ∧ c1.size = 1 ∧
      c1.m_key_iter_table.map Prod.fst = [k] ∧ c1.entries = [(k, v)] ∧
      c1.m_values.map (fun n => n.addr) = c.m_values.map (fun n => n.addr) ∧
      c1.capacity = 1 := by
  cases hm : c.m_values with
  | nil => simp [entries, hm] at hent
  | cons h r =>
    cases r with
    | cons h2 r2 => simp [entries, hm] at hent
    | nil =>
      simp only [entries, hm, List.map_cons, List.map_nil, List.cons.injEq, Prod.mk.injEq,
        and_true] at hent
      obtain ⟨e1, _⟩ := hent
      have hfind : find c.m_key_iter_table k = none := by
        rw [hc.find_none_iff, hm]
        intro n hn
        rw [List.mem_singleton] at hn
        rw [hn, e1]
        exact fun e => hne e.symm
      have hs : c.size = c.capacity := by
        rw [hc.size_eq, hm, hcap]
        rfl
      have ht := hc.table_perm
      have hk := hc.key_nodup
      rw [hm] at ht hk
      have he : erase c.m_key_iter_table h.first = [] :=
        List.Perm.eq_nil (erase_perm [] [] h ht hk)
      have hput := put_new_full_eq c k v (by omega) hfind hs h [] hm (by simp)
      rw [he] at hput
      have hk0 : find [(k, iterator.ptr h.addr)] k0 = none := by
        simp [find, hne]
      refine ⟨_, hput, ?_, get_miss_eq _ k0 hk0, ?_, rfl, rfl, rfl, ?_, hcap⟩
      · simp [cached, hk0]
      · simp [front, empty, list_front]
      · simp [hm]

theorem put_replaces_single_entry_witness :
    scenario_single.consistent ∧ scenario_single.capacity = 1 ∧
    scenario_single.entries = [(1, 2)] ∧ 2 ≠ 1 ∧
    ∃ c1, scenario_single.put 2 3 = some c1 ∧ c1.cached 1 = false ∧
      c1.get 1 = some (c1, none) ∧ c1.front = some (some (2, 3)) ∧ c1.size = 1 ∧
      c1.m_key_iter_table.map Prod.fst = [2] ∧ c1.entries = [(2, 3)] ∧
      c1.m_values.map (fun n => n.addr) = scenario_single.m_values.map (fun n => n.addr) ∧
      c1.capacity = 1 :=
  ⟨scenario_single_consistent, by decide, by decide, by decide,
    put_replaces_single_entry scenario_single scenario_single_consistent (by decide) 1 2 2 3
      (by decide) (by decide)⟩

/-- C19: on a consistent cache of any capacity, put(k, v) completes, and a second
put(k, v) right after it completes and returns the very state the first one produced:
list, table and capacity are the same. -/
theorem put_twice_same_as_once (c : lru_cache K V) (hc : c.consistent) (k : K) (v : V) :
    ∃ c1, c.put k v = some c1 ∧ c1.put k v = some c1 ∧
      (c.put k v).bind (fun c2 => c2.put k v) = c.put k v := by
  by_cases hcap : c.capacity = 0
  · have h := put_zero_eq c k v hcap
    exact ⟨c, h, h, by simp [h]⟩
  · obtain ⟨c1, h1, h2, h3, _, h5⟩ := put_spec hc k v
    obtain ⟨a, r, hl⟩ := h5 hcap
    have hcap1 : c1.capacity ≠ 0 := by rw [h3]; exact hcap
    have h6 := put_hit_eq h2 hcap1 [] r { addr := a, first := k, second := v } hl v
    have e : ({ c1 with m_values :=
        { addr := a, first := k, second := v } :: ([] ++ r) } : lru_cache K V) = c1 := by
      cases c1
      simp only [List.nil_append] at hl ⊢
      rw [hl]
    rw [e] at h6
    exact ⟨c1, h1, h6, by simp [h1, h6]⟩

theorem put_twice_same_as_once_witness :
    scenario_full.consistent ∧
    ∃ c1, scenario_full.put 3 "c" = some c1 ∧ c1.put 3 "c" = some c1 ∧
      (scenario_full.put 3 "c").bind (fun c2 => c2.put 3 "c") = scenario_full.put 3 "c" :=
  ⟨scenario_full_consistent, put_twice_same_as_once scenario_full scenario_full_consistent 3 "c"⟩

/-- C20: in every state reached from a constructed cache by put, get, reserve and clear:
when size() == capacity() > 0 the list is not empty, and every put completes; before each
iteration of the loop of every shrinking reserve the list is not empty, and every reserve
completes; when empty() is false the list is not empty, front() completes, and front()
returns an empty optional exactly when size() == 0. -/
theorem element_access_never_on_empty_list (n : Nat) (ops : List (operation K V)) :
    ∃ c, run (create n) ops = some c ∧
      (c.size = c.capacity → 0 < c.capacity → c.m_values ≠ []) ∧
      (∀ k v, ∃ c1, c.put k v = some c1) ∧
      (∀ m i, m < c.size → i < c.size - m →
        ∃ ci, reserve_loop i c = some ci ∧ ci.m_values ≠ []) ∧
      (∀ m, ∃ c1, c.reserve m = some c1) ∧
      (c.empty = false → c.m_values ≠ []) ∧
      (∃ r, c.front = some r ∧ (r = none ↔ c.size = 0)) := by
  obtain ⟨c, h1, hc, _⟩ := run_spec ops (create n) (consistent_create n) (Nat.zero_le _)
  have hs := hc.size_eq
  refine ⟨c, h1, ?_, ?_, ?_, ?_, ?_, ?_⟩
  · intro he hpos hnil
    rw [hnil] at hs
    simp only [List.length_nil] at hs
    omega
  · intro k v
    obtain ⟨c1, h, _⟩ := put_spec hc k v
    exact ⟨c1, h⟩
  · intro m i hm hi
    have hlen : (c.m_values.drop (c.m_values.length - i)).length = i := by
      rw [List.length_drop]
      omega
    obtain ⟨ci, h2, h3, _, _⟩ :=
      reserve_loop_spec i c hc (c.m_values.take (c.m_values.length - i))
        (c.m_values.drop (c.m_values.length - i))
        (List.take_append_drop _ c.m_values).symm hlen
    refine ⟨ci, h2, ?_⟩
    intro hnil
    have hl := congrArg List.length h3
    rw [hnil, List.length_take] at hl
    simp only [List.length_nil] at hl
    omega
  · intro m
    obtain ⟨c1, h, _⟩ := reserve_spec hc m
    exact ⟨c1, h⟩
  · intro he hnil
    rw [hnil] at hs
    have : c.m_key_iter_table = [] := List.length_eq_zero.1 hs
    simp [empty, this] at he
  · cases hm : c.m_values with
    | nil =>
      rw [hm] at hs
      exact ⟨none, front_of_nil c hs, by simp [hs]⟩
    | cons x r =>
      rw [hm] at hs
      refine ⟨some (x.first, x.second), front_of_cons hc x r hm, ?_⟩
      simp only [List.length_cons] at hs
      constructor
      · intro h
        cases h
      · intro h
        omega

end lru_cache

end gen
